import Mathlib

/-!
Verification of the mask-generation core of the `lcd_sound_lcd` repository.

The definitions below are shallow embeddings of the Python sources:
* `ki_alternate_algorithm.py` (standalone reference implementation:
  `find_nearest_center`, `should_invert_pixel`, `generate_mask`);
* `src/effect_engine/ki_alt.py` (class `KiAlt`: `_find_nearest_center`,
  `_should_invert_pixel`, `_generate_ki_alternate_mask_direct`,
  `process_frame`, `handle_key_press`, `set_parameter`);
* `src/effect_engine/gradient_overlay_simple.py`
  (`_interpolate_gradient_color`, `_generate_current_lut`).

Python integers are modelled as `ℤ` with floor division `Int.fdiv` and
nonnegative remainder `Int.emod` (which agree with Python `//` and `%` for
the divisors that occur).  Manhattan distances are natural numbers.
-/

namespace KiCore

/-- Python `range(lo, hi)` over integers, as a list. -/
def pyRange (lo hi : ℤ) : List ℤ :=
  (List.range (hi - lo).toNat).map fun (i : ℕ) => lo + (i : ℤ)

/-- Manhattan (L1) distance from the point `(x, y)` to the center `c`. -/
def dist (x y : ℤ) (c : ℤ × ℤ) : ℕ :=
  (x - c.1).natAbs + (y - c.2).natAbs

/-- One step of the nearest-center scan of `find_nearest_center`: the
accumulator is the current `min_distance` (`none` plays the role of the
initial `float('inf')`) together with the current `nearest_centers` list. -/
def nstep (dd : ℤ × ℤ → ℕ) (acc : Option ℕ × List (ℤ × ℤ)) (c : ℤ × ℤ) :
    Option ℕ × List (ℤ × ℤ) :=
  match acc with
  | (none, _) => (some (dd c), [c])
  | (some m, ns) =>
    if dd c < m then (some (dd c), [c])
    else if dd c = m then (some m, ns ++ [c])
    else (some m, ns)

/-- The candidate-center list enumerated by `find_nearest_center`
(`ki_alternate_algorithm.py`): Type-1 centers `(2*gx*q, 2*gy*q)` and Type-2
centers `((2*gx+1)*q, (2*gy+1)*q)` for grid indices ranging over
`range(-1, max_grid + 2)`. -/
def candidates (p : ℤ) (w h : ℕ) : List (ℤ × ℤ) :=
  let q := (p - 1).fdiv 2
  let maxgx : ℤ := if 0 < q then (w : ℤ).fdiv (2 * q) + 2 else 2
  let maxgy : ℤ := if 0 < q then (h : ℤ).fdiv (2 * q) + 2 else 2
  let type1 := (pyRange (-1) (maxgy + 1)).flatMap fun gy =>
    (pyRange (-1) (maxgx + 1)).map fun gx => (2 * gx * q, 2 * gy * q)
  let type2 := (pyRange (-1) (maxgy + 1)).flatMap fun gy =>
    (pyRange (-1) (maxgx + 1)).map fun gx => ((2 * gx + 1) * q, (2 * gy + 1) * q)
  type1 ++ type2

/-- The final `nearest_centers` list computed by `find_nearest_center`. -/
def nearestCenters (x y : ℤ) (p : ℤ) (w h : ℕ) : List (ℤ × ℤ) :=
  ((candidates p w h).foldl (nstep (dist x y)) (none, [])).2

/-- `find_nearest_center` of `ki_alternate_algorithm.py`: `none` when two or
more candidate centers tie for the minimum distance, otherwise the unique
nearest center (`(0, 0)` would be returned on an empty list). -/
def findNearestCenter (x y : ℤ) (p : ℤ) (w h : ℕ) : Option (ℤ × ℤ) :=
  let ns := nearestCenters x y p w h
  if 1 < ns.length then none else some (ns.headD (0, 0))

/-- `should_invert_pixel` of `ki_alternate_algorithm.py`. -/
def shouldInvertPixel (x y : ℤ) (t : ℤ) (p : ℤ) (w h : ℕ) : Bool :=
  match findNearestCenter x y p w h with
  | none => false
  | some c =>
    let distance := dist x y c
    let threshold := t.fdiv 2
    let isInv : Bool := decide ((distance : ℤ) ≤ threshold)
    let q := (p - 1).fdiv 2
    if 0 < q then
      if (c.1.fdiv q) % 2 = 1 ∧ (c.2.fdiv q) % 2 = 1 then !isInv else isInv
    else isInv

/-- `generate_mask` of `ki_alternate_algorithm.py`, as a list of rows. -/
def generateMask (w h : ℕ) (t : ℤ) (p : ℤ) : List (List Bool) :=
  (List.range h).map fun y => (List.range w).map fun x =>
    shouldInvertPixel (x : ℤ) (y : ℤ) t p w h

/-- `KiAlt._find_nearest_center` (`ki_alt.py`): same scan as the standalone
module, but `q ≤ 0` short-circuits to `(0, 0)` and a tie (or an empty
result) also falls back to `(0, 0)` instead of a `None` sentinel. -/
def kiAltFindNearestCenter (x y : ℤ) (p : ℤ) (w h : ℕ) : ℤ × ℤ :=
  let q := (p - 1).fdiv 2
  if q ≤ 0 then (0, 0)
  else
    let maxgx : ℤ := (w : ℤ).fdiv (2 * q) + 2
    let maxgy : ℤ := (h : ℤ).fdiv (2 * q) + 2
    let type1 := (pyRange (-1) (maxgy + 1)).flatMap fun gy =>
      (pyRange (-1) (maxgx + 1)).map fun gx => (2 * gx * q, 2 * gy * q)
    let type2 := (pyRange (-1) (maxgy + 1)).flatMap fun gy =>
      (pyRange (-1) (maxgx + 1)).map fun gx => ((2 * gx + 1) * q, (2 * gy + 1) * q)
    let ns := ((type1 ++ type2).foldl (nstep (dist x y)) (none, [])).2
    if ns.length ≠ 1 then (0, 0) else ns.headD (0, 0)

/-- `KiAlt._should_invert_pixel` (`ki_alt.py`).  Its nearest-center helper
never returns `None`, so the dead `center is None` guard is omitted. -/
def kiAltShouldInvertPixel (x y : ℤ) (t : ℤ) (p : ℤ) (w h : ℕ) : Bool :=
  let c := kiAltFindNearestCenter x y p w h
  let distance := dist x y c
  let threshold := t.fdiv 2
  let isInv : Bool := decide ((distance : ℤ) ≤ threshold)
  let q := (p - 1).fdiv 2
  if 0 < q then
    if (c.1.fdiv q) % 2 = 1 ∧ (c.2.fdiv q) % 2 = 1 then !isInv else isInv
  else isInv

/-- The five candidate centers used by the O(1) path
`KiAlt._generate_ki_alternate_mask_direct` for the pixel `(x, y)`:
the four Type-1 corners of its `2q×2q` cell and the cell's Type-2 center. -/
def fiveCenters (x y : ℕ) (p : ℤ) : List (ℤ × ℤ) :=
  let q := (p - 1).fdiv 2
  let cx := (x : ℤ).fdiv (2 * q)
  let cy := (y : ℤ).fdiv (2 * q)
  [(cx * (2 * q), cy * (2 * q)),
   ((cx + 1) * (2 * q), cy * (2 * q)),
   (cx * (2 * q), (cy + 1) * (2 * q)),
   ((cx + 1) * (2 * q), (cy + 1) * (2 * q)),
   ((cx * 2 + 1) * q, (cy * 2 + 1) * q)]

/-- Per-pixel value of `KiAlt._generate_ki_alternate_mask_direct` BEFORE the
global parity flip: the pattern value `pattern_mask[y, x]`. -/
def directPixelPre (x y : ℕ) (t : ℤ) (p : ℤ) : Bool :=
  if p ≤ 0 ∨ t < 0 then false
  else
    let q := (p - 1).fdiv 2
    if q ≤ 0 then false
    else
      let cx := (x : ℤ).fdiv (2 * q)
      let cy := (y : ℤ).fdiv (2 * q)
      let d1 := ((x : ℤ) - cx * (2 * q)).natAbs + ((y : ℤ) - cy * (2 * q)).natAbs
      let d2 := ((x : ℤ) - (cx + 1) * (2 * q)).natAbs + ((y : ℤ) - cy * (2 * q)).natAbs
      let d3 := ((x : ℤ) - cx * (2 * q)).natAbs + ((y : ℤ) - (cy + 1) * (2 * q)).natAbs
      let d4 := ((x : ℤ) - (cx + 1) * (2 * q)).natAbs + ((y : ℤ) - (cy + 1) * (2 * q)).natAbs
      let d5 := ((x : ℤ) - (cx * 2 + 1) * q).natAbs + ((y : ℤ) - (cy * 2 + 1) * q).natAbs
      let minDist := min (min (min d1 d2) (min d3 d4)) d5
      let isT2 : Bool := decide (d5 = minDist)
      let effectiveTime := t % p
      let threshold := effectiveTime.fdiv 2
      let base : Bool := decide ((minDist : ℤ) ≤ threshold)
      if isT2 then !base else base

/-- Per-pixel value of `KiAlt._generate_ki_alternate_mask_direct` including
the global parity flip driven by `frame_counter`. -/
def kiAltMaskPixel (x y : ℕ) (t : ℤ) (p : ℤ) (frameCounter : ℤ) : Bool :=
  if p ≤ 0 ∨ t < 0 then false
  else
    let q := (p - 1).fdiv 2
    if q ≤ 0 then false
    else
      let pattern := directPixelPre x y t p
      let cycleNumber := frameCounter.fdiv p
      if cycleNumber % 2 = 1 then !pattern else pattern

/-- Per-pixel mask as driven by `KiAlt.process_frame` from the raw animation
clock `T = global_frame_counter * time_multiplier`: the mask generator is
called with `time_param = T % pixel_width` and `frame_counter = T`. -/
def processClockPixel (x y : ℕ) (T : ℤ) (p : ℤ) : Bool :=
  kiAltMaskPixel x y (T % p) p T

/-- The direct (animated) pre-flip mask over a whole frame, as rows. -/
def directMaskPre (w h : ℕ) (t : ℤ) (p : ℤ) : List (List Bool) :=
  (List.range h).map fun y => (List.range w).map fun x => directPixelPre x y t p

/-- `should_invert_pixel` with every potentially throwing operation made
explicit: the two integer divisions whose divisor could in principle be zero
(`image_width // (2*q)` and `center_x // q`) are checked, and a `.error`
models a raised exception.  Everything else in the Python body (arithmetic,
`range`, the guarded `nearest_centers[0]` access) cannot raise. -/
def shouldInvertPixelE (x y : ℤ) (t : ℤ) (p : ℤ) (w h : ℕ) : Except Unit Bool :=
  let q := (p - 1).fdiv 2
  if 0 < q ∧ 2 * q = 0 then .error ()
  else
    let ns := nearestCenters x y p w h
    let center : Option (ℤ × ℤ) := if 1 < ns.length then none else some (ns.headD (0, 0))
    match center with
    | none => .ok false
    | some c =>
      let distance := dist x y c
      let threshold := t.fdiv 2
      let isInv : Bool := decide ((distance : ℤ) ≤ threshold)
      if 0 < q then
        if q = 0 then .error ()
        else .ok (if (c.1.fdiv q) % 2 = 1 ∧ (c.2.fdiv q) % 2 = 1 then !isInv else isInv)
      else .ok isInv

end KiCore

namespace GradientCore

/-- A gradient color stop: a position (nominally in `[0,1]`) and an RGB
color triple.  The gradient preset contract fixes color channels to
integers in `0..255`. -/
structure ColorStop where
  position : ℚ
  color : ℤ × ℤ × ℤ
  deriving DecidableEq, Repr

/-- Channel validity per the gradient preset contract: integers in 0..255. -/
def validColor (c : ℤ × ℤ × ℤ) : Prop :=
  0 ≤ c.1 ∧ c.1 ≤ 255 ∧ 0 ≤ c.2.1 ∧ c.2.1 ≤ 255 ∧ 0 ≤ c.2.2 ∧ c.2.2 ≤ 255

instance (c : ℤ × ℤ × ℤ) : Decidable (validColor c) := by
  unfold validColor; infer_instance

/-- `int(np.clip(v, 0, 255))`: clamp then truncate (truncation toward zero
equals floor on the clamped, nonnegative value). -/
def intClip (v : ℚ) : ℤ := ⌊max 0 (min 255 v)⌋

/-- The linear interpolation branch of `_interpolate_gradient_color` for a
pair of surrounding stops with distinct positions. -/
def lerpColor (s1 s2 : ColorStop) (pos : ℚ) : ℤ × ℤ × ℤ :=
  let t := (pos - s1.position) / (s2.position - s1.position)
  (intClip ((s1.color.1 : ℚ) + t * ((s2.color.1 : ℚ) - (s1.color.1 : ℚ))),
   intClip ((s1.color.2.1 : ℚ) + t * ((s2.color.2.1 : ℚ) - (s1.color.2.1 : ℚ))),
   intClip ((s1.color.2.2 : ℚ) + t * ((s2.color.2.2 : ℚ) - (s1.color.2.2 : ℚ))))

/-- The stop-pair walk of `_interpolate_gradient_color`: `s1` is the current
stop, the list holds the remaining stops; falling off the end returns the
last stop's color. -/
def interpGo : ColorStop → List ColorStop → ℚ → ℤ × ℤ × ℤ
  | s1, [], _ => s1.color
  | s1, s2 :: rest, pos =>
    if pos ≤ s2.position then
      (if s1.position = s2.position then s1.color else lerpColor s1 s2 pos)
    else interpGo s2 rest pos

/-- `GradientOverlaySimple._interpolate_gradient_color`: clamp the position
to `[0,1]`, then walk consecutive stop pairs.  (The Python code would raise
on an empty stop list; the empty case here returns a default never used by
the program.) -/
def interpolateGradientColor (stops : List ColorStop) (position : ℚ) : ℤ × ℤ × ℤ :=
  match stops with
  | [] => (0, 0, 0)
  | s :: rest => interpGo s rest (max 0 (min 1 position))

/-- One entry of the 256-entry LUT built by `_generate_current_lut`, as
stored: `(b, g, r)` channel order, each channel stored into a `uint8`
(hence reduced mod 256). -/
def lutEntry (stops : List ColorStop) (i : ℕ) : ℤ × ℤ × ℤ :=
  let color := interpolateGradientColor stops ((i : ℚ) / 255)
  (color.2.2 % 256, color.2.1 % 256, color.1 % 256)

/-- `GradientOverlaySimple._generate_current_lut`: the 256-entry BGR lookup
table derived from the active gradient's stops. -/
def buildLUT (stops : List ColorStop) : List (ℤ × ℤ × ℤ) :=
  (List.range 256).map (lutEntry stops)

end GradientCore

namespace KiAltFrame

/-- A frame pixel in OpenCV channel order `(b, g, r)`. -/
abbrev BGRPixel := ℤ × ℤ × ℤ

/-- Grayscale luminance of a BGR pixel (`cv2.cvtColor(..., COLOR_BGR2GRAY)`,
`Y = 0.299 R + 0.587 G + 0.114 B` rounded to the nearest integer). -/
def grayOf (pix : BGRPixel) : ℤ :=
  ⌊((299 * pix.2.2 + 587 * pix.2.1 + 114 * pix.1 : ℤ) : ℚ) / 1000 + 1 / 2⌋

/-- LUT lookup with the luminance clipped into `[0, len(lut) - 1]`
(`np.clip(luminance_values, 0, len(lut) - 1)` then fancy indexing). -/
def lutLookup (lut : List BGRPixel) (g : ℤ) : BGRPixel :=
  lut.getD (min (max g 0) ((lut.length : ℤ) - 1)).toNat (0, 0, 0)

/-- One blended channel: `(1 - op) * original + op * gradient`, computed in
floating point and truncated on store into the `uint8` frame. -/
def blendChannel (op : ℚ) (orig gradc : ℤ) : ℤ :=
  ⌊(1 - op) * (orig : ℚ) + op * (gradc : ℚ)⌋

/-- Per-pixel gradient blend used by `KiAlt.process_frame`. -/
def blendPix (op : ℚ) (orig grad : BGRPixel) : BGRPixel :=
  (blendChannel op orig.1 grad.1, blendChannel op orig.2.1 grad.2.1,
   blendChannel op orig.2.2 grad.2.2)

/-- The plain-inversion fallback: `255 - channel` on every channel. -/
def invertPix (pix : BGRPixel) : BGRPixel :=
  (255 - pix.1, 255 - pix.2.1, 255 - pix.2.2)

/-- The gradient compositing loop of `KiAlt.process_frame`: I pixels (mask
true) blend toward the gradient with opacity `iOp`, O pixels with `oOp`. -/
def applyMaskGradient (lut : List BGRPixel) (iOp oOp : ℚ)
    (frame : List BGRPixel) (mask : List Bool) : List BGRPixel :=
  (frame.zip mask).map fun pm =>
    let grad := lutLookup lut (grayOf pm.1)
    if pm.2 then blendPix iOp pm.1 grad else blendPix oOp pm.1 grad

/-- `KiAlt.process_frame`, with the frame flattened to a pixel list and the
mask-generation body abstracted as `maskBody : Except Unit (List Bool)`.
`.ok m` is the value computed by the `try` block of
`_generate_ki_alternate_mask_direct`; `.error e` models an exception raised
inside it, whose `except` branch substitutes an all-false mask of the
frame's shape.  The clock bookkeeping (`global_frame_counter`,
`time_multiplier`) only feeds `maskBody` and is left to its caller. -/
def processFrameWith (active : Bool) (lut : Option (List BGRPixel))
    (gradOpacity : ℤ) (frame : List BGRPixel)
    (maskBody : Except Unit (List Bool)) : List BGRPixel :=
  if !active then frame
  else
    let mask := match maskBody with
      | .ok m => m
      | .error _ => List.replicate frame.length false
    match lut with
    | some l =>
      let absOp := |gradOpacity|
      let iOp : ℚ := (absOp : ℚ) / 100
      let oOp : ℚ := ((100 - absOp : ℤ) : ℚ) / 100
      applyMaskGradient l iOp oOp frame mask
    | none => (frame.zip mask).map fun pm => if pm.2 then invertPix pm.1 else pm.1

/-- `']'` key: increase the see-saw gradient opacity, wrapping above 100. -/
def opInc (o : ℤ) : ℤ :=
  let o1 := o + 1
  if 100 < o1 then -100 else o1

/-- `'['` key: decrease the see-saw gradient opacity, wrapping below -100. -/
def opDec (o : ℤ) : ℤ :=
  let o1 := o - 1
  if o1 < -100 then 100 else o1

/-- A sequence of opacity key presses (`true` = increase, `false` =
decrease) applied from a starting value. -/
def applyOpacityOps (ops : List Bool) (o : ℤ) : ℤ :=
  ops.foldl (fun acc b => if b then opInc acc else opDec acc) o

/-- `KiAlt.set_parameter('pixel_width', v)`: clamp into
`[min_pixel_width, max_pixel_width] = [9, 199]`. -/
def pwClamp (v : ℤ) : ℤ := max 9 (min 199 v)

/-- Up/Down arrow keys: change `pixel_width` by ±10 and clamp. -/
def pwStep : Bool → ℤ → ℤ
  | true, p => pwClamp (p + 10)
  | false, p => pwClamp (p - 10)

/-- A sequence of pitch key presses applied from a starting pitch. -/
def applyPitchOps (ops : List Bool) (p : ℤ) : ℤ :=
  ops.foldl (fun acc b => pwStep b acc) p

end KiAltFrame

/-! ## Shared auxiliary lemmas -/

namespace KiCore

lemma mem_pyRange {lo hi a : ℤ} : a ∈ pyRange lo hi ↔ lo ≤ a ∧ a < hi := by
  unfold pyRange
  simp only [List.mem_map, List.mem_range]
  constructor
  · rintro ⟨i, hi2, rfl⟩
    omega
  · rintro ⟨h1, h2⟩
    exact ⟨(a - lo).toNat, by omega, by omega⟩

end KiCore

namespace KiAltFrame

lemma applyOpacityOps_cons (b : Bool) (ops : List Bool) (o : ℤ) :
    applyOpacityOps (b :: ops) o = applyOpacityOps ops (if b then opInc o else opDec o) := by
  simp [applyOpacityOps]

lemma applyOpacityOps_bounds :
    ∀ (ops : List Bool) (o : ℤ), -100 ≤ o → o ≤ 100 →
      -100 ≤ applyOpacityOps ops o ∧ applyOpacityOps ops o ≤ 100 := by
  intro ops
  induction ops with
  | nil => intro o h1 h2; exact ⟨h1, h2⟩
  | cons b ops ih =>
    intro o h1 h2
    rw [applyOpacityOps_cons]
    apply ih
    · cases b <;> simp only [opInc, opDec, if_true, if_false] <;> split <;> omega
    · cases b <;> simp only [opInc, opDec, if_true, if_false] <;> split <;> omega

lemma applyPitchOps_cons (b : Bool) (ops : List Bool) (p : ℤ) :
    applyPitchOps (b :: ops) p = applyPitchOps ops (pwStep b p) := by
  simp [applyPitchOps]

lemma applyPitchOps_invariant :
    ∀ (ops : List Bool) (p : ℤ), p % 2 = 1 → 9 ≤ p → p ≤ 199 →
      applyPitchOps ops p % 2 = 1 ∧ 9 ≤ applyPitchOps ops p ∧
        applyPitchOps ops p ≤ 199 := by
  intro ops
  induction ops with
  | nil => intro p h1 h2 h3; exact ⟨h1, h2, h3⟩
  | cons b ops ih =>
    intro p h1 h2 h3
    rw [applyPitchOps_cons]
    have hs : pwStep b p % 2 = 1 ∧ 9 ≤ pwStep b p ∧ pwStep b p ≤ 199 := by
      cases b <;> simp only [pwStep, pwClamp] <;>
        rw [max_def, min_def] <;> split_ifs <;> omega
    exact ih _ hs.1 hs.2.1 hs.2.2

end KiAltFrame

/-! ## Claim theorems -/

open KiCore GradientCore KiAltFrame

/-- C9: the see-saw opacity parameter wraps — incrementing from 100 yields
-100 and decrementing from -100 yields 100 — and starting from the default
value 100, any sequence of increase/decrease operations keeps the parameter
in `[-100, 100]`. -/
theorem opacity_wrap_law :
    opInc 100 = -100 ∧ opDec (-100) = 100 ∧
      ∀ ops : List Bool, -100 ≤ applyOpacityOps ops 100 ∧ applyOpacityOps ops 100 ≤ 100 := by
  refine ⟨by decide, by decide, fun ops => ?_⟩
  exact applyOpacityOps_bounds ops 100 (by decide) (by decide)

/-- C10: starting from the default pitch 19, any sequence of pitch
increase/decrease key operations keeps `pixel_width` odd and clamped into
`[9, 199]`, so the derived half-pitch `q = (p-1)//2` stays positive. -/
theorem pixel_width_always_odd_clamped :
    ∀ ops : List Bool,
      Odd (applyPitchOps ops 19) ∧ 9 ≤ applyPitchOps ops 19 ∧
        applyPitchOps ops 19 ≤ 199 ∧ 0 < (applyPitchOps ops 19 - 1).fdiv 2 := by
  intro ops
  obtain ⟨h1, h2, h3⟩ := applyPitchOps_invariant ops 19 (by decide) (by decide) (by decide)
  refine ⟨?_, h2, h3, ?_⟩
  · rw [Int.odd_iff]
    omega
  · have h4 : (applyPitchOps ops 19 - 1).fdiv 2 = (applyPitchOps ops 19 - 1) / 2 :=
      Int.fdiv_eq_ediv _ (by norm_num)
    rw [h4]
    omega

namespace KiAltFrame

lemma zip_replicate_false_map (f : BGRPixel → BGRPixel) :
    ∀ l : List BGRPixel,
      (l.zip (List.replicate l.length false)).map
        (fun pm => if pm.2 then f pm.1 else pm.1) = l := by
  intro l
  induction l with
  | nil => rfl
  | cons a l ih =>
    simpa [List.replicate_succ] using ih

end KiAltFrame

/-- C7 counterexample: a fault inside the mask computation does NOT leave
the frame unmodified in general.  With a gradient LUT loaded and see-saw
opacity 0 (O-region opacity 1), a black 1×1 frame comes back gradient
colored even though the mask generator faulted. -/
theorem process_frame_fault_changes_frame :
    processFrameWith true (some (List.replicate 256 ((200 : ℤ), 200, 200))) 0
        [((1 : ℤ), 2, 3)] (.error ()) ≠ [((1 : ℤ), 2, 3)] := by
  have hg : grayOf ((1 : ℤ), 2, 3) = 2 := by
    unfold grayOf
    norm_num
  have hlut : lutLookup (List.replicate 256 ((200 : ℤ), 200, 200)) 2 = (200, 200, 200) := by
    unfold lutLookup
    rw [List.length_replicate]
    norm_num
  have h : processFrameWith true (some (List.replicate 256 ((200 : ℤ), 200, 200))) 0
      [((1 : ℤ), 2, 3)] (.error ()) = [((200 : ℤ), 200, 200)] := by
    unfold processFrameWith applyMaskGradient
    simp only [Bool.not_true, Bool.false_eq_true, if_false, List.length_cons,
      List.length_nil, Nat.zero_add, List.replicate_one, List.zip_cons_cons,
      List.zip_nil_right, List.map_cons, List.map_nil, hg, hlut]
    unfold blendPix blendChannel
    norm_num
  rw [h]
  decide

/-- C7 (amended): a fault inside the per-frame mask computation is caught
and replaced by an all-false mask, after which the frame is composited
normally; in particular when no gradient LUT is loaded (plain-inversion
fallback) the output frame equals the input frame exactly. -/
theorem process_frame_fault_fail_open :
    ∀ (act : Bool) (lut : Option (List BGRPixel)) (op : ℤ) (frame : List BGRPixel),
      processFrameWith act lut op frame (.error ()) =
          processFrameWith act lut op frame (.ok (List.replicate frame.length false)) ∧
        processFrameWith act none op frame (.error ()) = frame := by
  intro act lut op frame
  constructor
  · rfl
  · cases act with
    | false => rfl
    | true =>
      show (frame.zip (List.replicate frame.length false)).map _ = frame
      exact zip_replicate_false_map invertPix frame

namespace GradientCore

lemma intClip_nonneg (v : ℚ) : 0 ≤ intClip v := by
  unfold intClip
  exact Int.floor_nonneg.mpr (le_max_left _ _)

lemma intClip_le (v : ℚ) : intClip v ≤ 255 := by
  unfold intClip
  have h : max 0 (min 255 v) ≤ (255 : ℚ) := max_le (by norm_num) (min_le_left _ _)
  calc ⌊max 0 (min 255 v)⌋ ≤ ⌊(255 : ℚ)⌋ := Int.floor_le_floor h
    _ = 255 := by norm_num

lemma intClip_intCast {c : ℤ} (h0 : 0 ≤ c) (h255 : c ≤ 255) : intClip (c : ℚ) = c := by
  unfold intClip
  rw [min_eq_right (by exact_mod_cast h255), max_eq_right (by exact_mod_cast h0),
    Int.floor_intCast]

lemma validColor_lerp (s1 s2 : ColorStop) (pos : ℚ) : validColor (lerpColor s1 s2 pos) :=
  ⟨intClip_nonneg _, intClip_le _, intClip_nonneg _, intClip_le _,
    intClip_nonneg _, intClip_le _⟩

lemma interpGo_valid :
    ∀ (rest : List ColorStop) (s1 : ColorStop) (pos : ℚ),
      validColor s1.color → (∀ s ∈ rest, validColor s.color) →
      validColor (interpGo s1 rest pos) := by
  intro rest
  induction rest with
  | nil => intro s1 pos h1 _; exact h1
  | cons s2 rest ih =>
    intro s1 pos h1 h2
    unfold interpGo
    split
    · split
      · exact h1
      · exact validColor_lerp s1 s2 pos
    · exact ih s2 pos (h2 s2 (by simp)) fun s hs => h2 s (by simp [hs])

lemma interpolate_valid (stops : List ColorStop) (pos : ℚ)
    (hv : ∀ s ∈ stops, validColor s.color) :
    validColor (interpolateGradientColor stops pos) := by
  cases stops with
  | nil =>
    exact show validColor ((0 : ℤ), (0 : ℤ), (0 : ℤ)) from
      ⟨le_refl 0, by norm_num, le_refl 0, by norm_num, le_refl 0, by norm_num⟩
  | cons s rest =>
    exact interpGo_valid rest s _ (hv s (by simp)) fun a ha => hv a (by simp [ha])

lemma lerpColor_left (s1 s2 : ColorStop) (hv : validColor s1.color) :
    lerpColor s1 s2 s1.position = s1.color := by
  obtain ⟨h1, h2, h3, h4, h5, h6⟩ := hv
  unfold lerpColor
  simp only [sub_self, zero_div, zero_mul, add_zero]
  rw [intClip_intCast h1 h2, intClip_intCast h3 h4, intClip_intCast h5 h6]

lemma lerpColor_right (s1 s2 : ColorStop) (hv : validColor s2.color)
    (hne : s1.position ≠ s2.position) :
    lerpColor s1 s2 s2.position = s2.color := by
  obtain ⟨h1, h2, h3, h4, h5, h6⟩ := hv
  unfold lerpColor
  rw [div_self (sub_ne_zero.mpr (Ne.symm hne))]
  simp only [one_mul, add_sub_cancel]
  rw [intClip_intCast h1 h2, intClip_intCast h3 h4, intClip_intCast h5 h6]

lemma interpGo_roundtrip :
    ∀ (rest : List ColorStop) (s1 : ColorStop) (i : ℕ)
      (hi : i < (s1 :: rest).length),
      List.Chain' (fun a b => a.position < b.position) (s1 :: rest) →
      (∀ s ∈ s1 :: rest, validColor s.color) →
      interpGo s1 rest (((s1 :: rest).get ⟨i, hi⟩).position) =
        ((s1 :: rest).get ⟨i, hi⟩).color := by
  intro rest
  induction rest with
  | nil =>
    intro s1 i hi _ _
    have h0 : i = 0 := by
      simp only [List.length_cons, List.length_nil] at hi
      omega
    subst h0
    rfl
  | cons s2 rest ih =>
    intro s1 i hi hchain hv
    have hlt : s1.position < s2.position := (List.chain'_cons.mp hchain).1
    match i with
    | 0 =>
      show interpGo s1 (s2 :: rest) s1.position = s1.color
      unfold interpGo
      rw [if_pos (le_of_lt hlt), if_neg (ne_of_lt hlt)]
      exact lerpColor_left s1 s2 (hv s1 (by simp))
    | 1 =>
      show interpGo s1 (s2 :: rest) s2.position = s2.color
      unfold interpGo
      rw [if_pos (le_refl _), if_neg (ne_of_lt hlt)]
      exact lerpColor_right s1 s2 (hv s2 (by simp)) (ne_of_lt hlt)
    | (j + 2) =>
      have hi2 : j + 1 < (s2 :: rest).length := by
        simpa using hi
      have hc2 : List.Chain' (fun a b => a.position < b.position) (s2 :: rest) :=
        (List.chain'_cons.mp hchain).2
      have hgt : s2.position < (((s2 :: rest).get ⟨j + 1, hi2⟩).position) := by
        haveI : IsTrans ColorStop (fun a b => a.position < b.position) :=
          ⟨fun a b c hab hbc => lt_trans hab hbc⟩
        have hp := List.chain'_iff_pairwise.mp hc2
        have hr := (List.pairwise_iff_get.mp hp) ⟨0, by simp⟩ ⟨j + 1, hi2⟩
          (Fin.mk_lt_mk.mpr (Nat.succ_pos j))
        simpa using hr
      show interpGo s1 (s2 :: rest) (((s2 :: rest).get ⟨j + 1, hi2⟩).position) = _
      unfold interpGo
      rw [if_neg (not_le.mpr hgt)]
      exact ih s2 (j + 1) hi2 hc2 fun s hs => hv s (by simp [hs])

end GradientCore

/-- C5 counterexample: with merely non-decreasing positions (duplicates
allowed), the round-trip fails: for two stops at the same position with
different colors, interpolating at that position returns the FIRST stop's
color, not the second's.  All stop positions here lie in `[0, 1]` and are
non-decreasing, and all colors are valid 0..255 integers. -/
theorem interpolate_roundtrip_counterexample :
    (∀ s ∈ [ColorStop.mk 0 (10, 0, 0), ColorStop.mk 0 (20, 0, 0)],
        0 ≤ s.position ∧ s.position ≤ 1) ∧
      List.Chain' (fun a b => a.position ≤ b.position)
        [ColorStop.mk 0 (10, 0, 0), ColorStop.mk 0 (20, 0, 0)] ∧
      (∀ s ∈ [ColorStop.mk 0 (10, 0, 0), ColorStop.mk 0 (20, 0, 0)],
        validColor s.color) ∧
      interpolateGradientColor [ColorStop.mk 0 (10, 0, 0), ColorStop.mk 0 (20, 0, 0)]
          ((ColorStop.mk (0 : ℚ) ((20 : ℤ), 0, 0)).position) ≠
        (ColorStop.mk (0 : ℚ) ((20 : ℤ), 0, 0)).color := by
  refine ⟨by simp, by simp, by simp [validColor], ?_⟩
  have h : interpolateGradientColor
      [ColorStop.mk 0 (10, 0, 0), ColorStop.mk 0 (20, 0, 0)]
      ((ColorStop.mk (0 : ℚ) ((20 : ℤ), 0, 0)).position) = (10, 0, 0) := by
    show interpGo _ [ColorStop.mk 0 (20, 0, 0)] (max 0 (min 1 0)) = _
    norm_num [interpGo]
  rw [h]
  decide

/-- C5 (amended): the gradient interpolation round-trip
`interpolate(stops, stops[i].position) = stops[i].color` holds for every
stop list whose positions lie in `[0, 1]` and are STRICTLY increasing (the
claim's merely non-decreasing ordering fails on duplicate positions), with
colors in the 0..255 range of the preset contract. -/
theorem interpolate_roundtrip (stops : List GradientCore.ColorStop) (i : ℕ)
    (hi : i < stops.length)
    (hpos : ∀ s ∈ stops, 0 ≤ s.position ∧ s.position ≤ 1)
    (hchain : List.Chain' (fun a b => a.position < b.position) stops)
    (hv : ∀ s ∈ stops, validColor s.color) :
    interpolateGradientColor stops ((stops.get ⟨i, hi⟩).position) =
      (stops.get ⟨i, hi⟩).color := by
  match stops with
  | [] => exact absurd hi (by simp)
  | s1 :: rest =>
    obtain ⟨hp0, hp1⟩ := hpos _ (List.get_mem _ _ _)
    show interpGo s1 rest (max 0 (min 1 _)) = _
    rw [min_eq_right hp1, max_eq_right hp0]
    exact interpGo_roundtrip rest s1 i hi hchain hv

/-- Witness for C5 (amended) at a concrete two-stop gradient. -/
theorem interpolate_roundtrip_witness :
    interpolateGradientColor
        [ColorStop.mk 0 ((10 : ℤ), 20, 30), ColorStop.mk 1 ((200 : ℤ), 100, 50)]
        (([ColorStop.mk (0 : ℚ) ((10 : ℤ), 20, 30),
            ColorStop.mk (1 : ℚ) ((200 : ℤ), 100, 50)].get ⟨1, by simp⟩).position) =
      ([ColorStop.mk (0 : ℚ) ((10 : ℤ), 20, 30),
        ColorStop.mk (1 : ℚ) ((200 : ℤ), 100, 50)].get ⟨1, by simp⟩).color :=
  interpolate_roundtrip _ 1 (by simp) (by simp) (by simp) (by simp [validColor])

/-- C6: every entry of the 256-entry LUT built by `_generate_current_lut`
equals, as an RGB triple (entries are stored in BGR order), the gradient
interpolation at `k/255`, exactly — for every stop list with colors in the
0..255 range of the preset contract. -/
theorem buildLUT_matches_interpolate (stops : List GradientCore.ColorStop) (k : ℕ)
    (hk : k < 256) (hv : ∀ s ∈ stops, validColor s.color) :
    (buildLUT stops).getD k (0, 0, 0) =
      ((interpolateGradientColor stops ((k : ℚ) / 255)).2.2,
       (interpolateGradientColor stops ((k : ℚ) / 255)).2.1,
       (interpolateGradientColor stops ((k : ℚ) / 255)).1) := by
  have hb : (buildLUT stops).getD k (0, 0, 0) = lutEntry stops k := by
    unfold buildLUT
    rw [List.getD_eq_getElem?_getD, List.getElem?_map, List.getElem?_range hk]
    rfl
  rw [hb]
  obtain ⟨h1, h2, h3, h4, h5, h6⟩ := interpolate_valid stops ((k : ℚ) / 255) hv
  simp only [lutEntry]
  rw [Int.emod_eq_of_lt h5 (by omega), Int.emod_eq_of_lt h3 (by omega),
    Int.emod_eq_of_lt h1 (by omega)]

/-- Witness for C6 at a concrete two-stop gradient and `k = 0`. -/
theorem buildLUT_matches_interpolate_witness :
    (buildLUT [ColorStop.mk 0 ((10 : ℤ), 20, 30),
        ColorStop.mk 1 ((200 : ℤ), 100, 50)]).getD 0 (0, 0, 0) =
      ((interpolateGradientColor [ColorStop.mk 0 ((10 : ℤ), 20, 30),
          ColorStop.mk 1 ((200 : ℤ), 100, 50)] ((0 : ℚ) / 255)).2.2,
       (interpolateGradientColor [ColorStop.mk 0 ((10 : ℤ), 20, 30),
          ColorStop.mk 1 ((200 : ℤ), 100, 50)] ((0 : ℚ) / 255)).2.1,
       (interpolateGradientColor [ColorStop.mk 0 ((10 : ℤ), 20, 30),
          ColorStop.mk 1 ((200 : ℤ), 100, 50)] ((0 : ℚ) / 255)).1) :=
  buildLUT_matches_interpolate _ 0 (by norm_num) (by simp [validColor])

/-- C8: for pitch with `q = (p-1)//2 > 0` and any in-frame pixel and
non-negative time, the static per-pixel evaluate is total and
deterministic: the exception-explicit variant (which models every operation
of the Python body that could raise, in particular the two integer
divisions) returns `.ok` of the value of the pure function of the inputs —
it never throws, and equal inputs give equal results. -/
theorem evaluate_total_deterministic (x y t p : ℤ) (w h : ℕ)
    (hq : 0 < (p - 1).fdiv 2) (hx : 0 ≤ x) (hxw : x < (w : ℤ))
    (hy : 0 ≤ y) (hyh : y < (h : ℤ)) (ht : 0 ≤ t) :
    shouldInvertPixelE x y t p w h = .ok (shouldInvertPixel x y t p w h) := by
  unfold shouldInvertPixelE shouldInvertPixel findNearestCenter
  rw [if_neg (show ¬(0 < (p - 1).fdiv 2 ∧ 2 * (p - 1).fdiv 2 = 0) by omega)]
  by_cases h1 : 1 < (nearestCenters x y p w h).length
  · simp only [h1, if_true]
  · simp only [h1, if_false]
    rw [if_pos hq, if_pos hq, if_neg (show ¬(p - 1).fdiv 2 = 0 by omega)]

/-- Witness for C8 at a concrete in-frame pixel with `p = 9`. -/
theorem evaluate_total_deterministic_witness :
    shouldInvertPixelE 2 3 5 9 10 10 = .ok (shouldInvertPixel 2 3 5 9 10 10) :=
  evaluate_total_deterministic 2 3 5 9 10 10 (by decide) (by decide) (by decide)
    (by decide) (by decide) (by decide)

namespace KiCore

lemma q_of_odd {p q : ℤ} (hp : p = 2 * q + 1) : (p - 1).fdiv 2 = q := by
  rw [hp, show 2 * q + 1 - 1 = q * 2 by ring, Int.mul_fdiv_cancel _ (by norm_num)]

end KiCore

/-- C2 counterexample: the static `evaluate` (`should_invert_pixel`) is NOT
periodic with period `p` in its raw time argument — its threshold `t // 2`
is never reduced mod `p`.  At pixel (0,1) with `p = 9` on a 10×10 frame,
`evaluate` differs between `t = 0` and `t = 0 + p = 9`. -/
theorem evaluate_not_periodic_counterexample :
    shouldInvertPixel 0 1 0 9 10 10 = false ∧
      shouldInvertPixel 0 1 (0 + 9) 9 10 10 = true := by
  decide

/-- C2 (amended): the mask pattern actually produced by the animated mask
generator IS periodic: the generator reduces its clock mod `p`, so the
pre-flip pattern has period `p` in the time parameter, and the full mask as
driven by `process_frame` from the raw clock (with the global parity flip
every `p` frames) has period `2p`. -/
theorem mask_periodicity (x y : ℕ) (t T p q : ℤ) (hp : p = 2 * q + 1) (hq : 0 < q)
    (ht : 0 ≤ t) (hT : 0 ≤ T) :
    directPixelPre x y (t + p) p = directPixelPre x y t p ∧
      processClockPixel x y (T + 2 * p) p = processClockPixel x y T p := by
  have hppos : 0 < p := by omega
  constructor
  · unfold directPixelPre
    rw [show t + p = t + 1 * p by ring, Int.add_mul_emod_self,
      if_neg (show ¬(p ≤ 0 ∨ t + 1 * p < 0) by omega),
      if_neg (show ¬(p ≤ 0 ∨ t < 0) by omega)]
  · unfold processClockPixel kiAltMaskPixel
    have he : (T + 2 * p) % p = T % p := Int.add_mul_emod_self
    have hc : (T + 2 * p).fdiv p % 2 = T.fdiv p % 2 := by
      rw [Int.fdiv_eq_ediv _ (by omega), Int.fdiv_eq_ediv _ (by omega),
        Int.add_mul_ediv_right _ _ (show p ≠ 0 by omega)]
      omega
    rw [he]
    simp only [hc]

namespace KiCore

/-- Running minimum of `dd` over a list, starting from `m`. -/
def minFold (dd : ℤ × ℤ → ℕ) (m : ℕ) (L : List (ℤ × ℤ)) : ℕ :=
  L.foldl (fun a c => min a (dd c)) m

/-- Minimum of `dd` over a candidate list (`0` for the empty list, which the
scan never produces). -/
def minDistOver (dd : ℤ × ℤ → ℕ) : List (ℤ × ℤ) → ℕ
  | [] => 0
  | c :: rest => minFold dd (dd c) rest

lemma minFold_le_init (dd : ℤ × ℤ → ℕ) :
    ∀ (L : List (ℤ × ℤ)) (m : ℕ), minFold dd m L ≤ m := by
  intro L
  induction L with
  | nil => intro m; exact le_refl m
  | cons c L ih =>
    intro m
    calc minFold dd m (c :: L) = minFold dd (min m (dd c)) L := rfl
      _ ≤ min m (dd c) := ih _
      _ ≤ m := min_le_left _ _

lemma minFold_le_mem (dd : ℤ × ℤ → ℕ) :
    ∀ (L : List (ℤ × ℤ)) (m : ℕ) (c : ℤ × ℤ), c ∈ L → minFold dd m L ≤ dd c := by
  intro L
  induction L with
  | nil => intro m c hc; exact absurd hc (List.not_mem_nil c)
  | cons a L ih =>
    intro m c hc
    rcases List.mem_cons.mp hc with rfl | hc2
    · calc minFold dd m (c :: L) = minFold dd (min m (dd c)) L := rfl
        _ ≤ min m (dd c) := minFold_le_init dd L _
        _ ≤ dd c := min_le_right _ _
    · exact ih _ c hc2

lemma nfold_go (dd : ℤ × ℤ → ℕ) :
    ∀ (L : List (ℤ × ℤ)) (m : ℕ) (ns : List (ℤ × ℤ)),
      L.foldl (nstep dd) (some m, ns) =
        (some (minFold dd m L),
          (if minFold dd m L = m then ns else []) ++
            L.filter (fun c => dd c = minFold dd m L)) := by
  intro L
  induction L with
  | nil =>
    intro m ns
    simp [minFold]
  | cons c L ih =>
    intro m ns
    rw [List.foldl_cons,
      show nstep dd (some m, ns) c =
        (if dd c < m then (some (dd c), [c])
         else if dd c = m then (some m, ns ++ [c]) else (some m, ns)) from rfl]
    rcases lt_trichotomy (dd c) m with hlt | heq | hgt
    · rw [if_pos hlt, ih]
      have hmf : minFold dd m (c :: L) = minFold dd (dd c) L := by
        show minFold dd (min m (dd c)) L = _
        rw [min_eq_right (le_of_lt hlt)]
      rw [hmf]
      have hMle : minFold dd (dd c) L ≤ dd c := minFold_le_init dd L _
      rw [List.filter_cons]
      by_cases hceq : dd c = minFold dd (dd c) L
      · rw [if_pos (hceq.symm), if_neg (show minFold dd (dd c) L ≠ m by omega),
          if_pos (show decide (dd c = minFold dd (dd c) L) = true by
            rw [decide_eq_true_eq]; omega)]
        simp
      · rw [if_neg (fun h => hceq h.symm), if_neg (show minFold dd (dd c) L ≠ m by omega),
          if_neg (show ¬decide (dd c = minFold dd (dd c) L) = true by
            rw [decide_eq_true_eq]; omega)]
    · rw [if_neg (by omega), if_pos heq, ih]
      have hmf : minFold dd m (c :: L) = minFold dd m L := by
        show minFold dd (min m (dd c)) L = _
        rw [heq, min_self]
      rw [hmf, List.filter_cons]
      by_cases hMm : minFold dd m L = m
      · rw [if_pos hMm, if_pos hMm,
          if_pos (show decide (dd c = minFold dd m L) = true by
            rw [decide_eq_true_eq]; omega)]
        simp
      · rw [if_neg hMm, if_neg hMm,
          if_neg (show ¬decide (dd c = minFold dd m L) = true by
            rw [decide_eq_true_eq]; omega)]
    · rw [if_neg (by omega), if_neg (by omega), ih]
      have hmf : minFold dd m (c :: L) = minFold dd m L := by
        show minFold dd (min m (dd c)) L = _
        rw [min_eq_left (le_of_lt hgt)]
      rw [hmf, List.filter_cons]
      have hMle : minFold dd m L ≤ m := minFold_le_init dd L _
      rw [if_neg (show ¬decide (dd c = minFold dd m L) = true by
        rw [decide_eq_true_eq]; omega)]

lemma nfold_closed (dd : ℤ × ℤ → ℕ) (c : ℤ × ℤ) (L : List (ℤ × ℤ)) :
    (c :: L).foldl (nstep dd) (none, []) =
      (some (minDistOver dd (c :: L)),
        (c :: L).filter (fun a => dd a = minDistOver dd (c :: L))) := by
  rw [List.foldl_cons,
    show nstep dd (none, []) c = (some (dd c), [c]) from rfl, nfold_go,
    show minDistOver dd (c :: L) = minFold dd (dd c) L from rfl,
    List.filter_cons]
  have hMle : minFold dd (dd c) L ≤ dd c := minFold_le_init dd L _
  by_cases hceq : dd c = minFold dd (dd c) L
  · rw [if_pos (hceq.symm), if_pos (show decide (dd c = minFold dd (dd c) L) = true by
      rw [decide_eq_true_eq]; omega)]
    simp
  · rw [if_neg (fun h => hceq h.symm), if_neg (show ¬decide (dd c = minFold dd (dd c) L) = true by
      rw [decide_eq_true_eq]; omega)]
    simp

/-- The scan's `nearest_centers` list is exactly the sublist of candidates
achieving the minimum distance. -/
lemma nearestCenters_eq (x y : ℤ) (p : ℤ) (w h : ℕ)
    (hne : candidates p w h ≠ []) :
    nearestCenters x y p w h = (candidates p w h).filter
      (fun a => dist x y a = minDistOver (dist x y) (candidates p w h)) := by
  obtain ⟨c, L, hcl⟩ := List.exists_cons_of_ne_nil hne
  unfold nearestCenters
  rw [hcl, nfold_closed]

end KiCore

set_option maxRecDepth 4000 in
/-- C3 counterexample: the KiAlt class's exhaustive helper
(`KiAlt._find_nearest_center`) does not resolve ties as "do not invert": it
falls back to the center `(0, 0)` and applies the normal threshold rule.
At pixel (2,2) with `p = 9` on a 10×10 frame, two centers tie for the
minimum distance, yet at `t = 8` the class's decision is `true`. -/
theorem tie_invert_counterexample :
    2 ≤ ((candidates 9 10 10).filter
        (fun c => dist 2 2 c = minDistOver (dist 2 2) (candidates 9 10 10))).length ∧
      kiAltShouldInvertPixel 2 2 8 9 10 10 = true := by
  decide

/-- C3 (amended): in the standalone reference module
(`ki_alternate_algorithm.should_invert_pixel`), whenever two or more
candidate centers tie for the minimum Manhattan distance the decision is
`false` (do not invert), for every pixel, time and pitch.  The KiAlt
class's copy of the exhaustive search instead falls back to center (0,0)
on ties and can invert. -/
theorem tie_implies_no_invert (x y t p : ℤ) (w h : ℕ)
    (htie : 2 ≤ ((candidates p w h).filter
        (fun c => dist x y c = minDistOver (dist x y) (candidates p w h))).length) :
    shouldInvertPixel x y t p w h = false := by
  have hne : candidates p w h ≠ [] := by
    intro he
    rw [he] at htie
    simp at htie
  have hfn : findNearestCenter x y p w h = none := by
    unfold findNearestCenter
    rw [nearestCenters_eq x y p w h hne, if_pos (by omega)]
  unfold shouldInvertPixel
  rw [hfn]

set_option maxRecDepth 4000 in
/-- Witness for C3 (amended): the tie pixel (2,2), `p = 9`, 10×10 frame. -/
theorem tie_implies_no_invert_witness :
    shouldInvertPixel 2 2 8 9 10 10 = false :=
  tie_implies_no_invert 2 2 8 9 10 10 (by decide)

namespace KiCore

lemma nfold_replicate (dd : ℤ × ℤ → ℕ) (c0 : ℤ × ℤ) :
    ∀ (n : ℕ) (ns : List (ℤ × ℤ)),
      (List.replicate n c0).foldl (nstep dd) (some (dd c0), ns) =
        (some (dd c0), ns ++ List.replicate n c0) := by
  intro n
  induction n with
  | zero => intro ns; simp
  | succ n ih =>
    intro ns
    rw [List.replicate_succ, List.foldl_cons,
      show nstep dd (some (dd c0), ns) c0 = (some (dd c0), ns ++ [c0]) from by
        show (if dd c0 < dd c0 then _ else if dd c0 = dd c0 then _ else _) = _
        rw [if_neg (lt_irrefl _), if_pos rfl],
      ih]
    simp [List.replicate_succ]

/-- With degenerate `q = 0` every candidate collapses to `(0,0)`, the scan
reports a 32-way tie, and the module's decision is `false`. -/
lemma shouldInvert_false_of_candidates_replicate (x y t p : ℤ) (w h : ℕ)
    (hc : candidates p w h = List.replicate 32 ((0 : ℤ), (0 : ℤ))) :
    shouldInvertPixel x y t p w h = false := by
  have hns : nearestCenters x y p w h =
      [((0 : ℤ), (0 : ℤ))] ++ List.replicate 31 ((0 : ℤ), (0 : ℤ)) := by
    unfold nearestCenters
    rw [hc,
      show List.replicate 32 ((0 : ℤ), (0 : ℤ)) =
        ((0 : ℤ), (0 : ℤ)) :: List.replicate 31 ((0 : ℤ), (0 : ℤ)) from rfl,
      List.foldl_cons,
      show nstep (dist x y) (none, []) ((0 : ℤ), (0 : ℤ)) =
        (some (dist x y ((0 : ℤ), (0 : ℤ))), [((0 : ℤ), (0 : ℤ))]) from rfl,
      nfold_replicate]
  have hfn : findNearestCenter x y p w h = none := by
    unfold findNearestCenter
    rw [hns, if_pos (by simp)]
  unfold shouldInvertPixel
  rw [hfn]

end KiCore

/-- C4 counterexample: the claim quantifies over every pitch with
`q = (p-1)//2 ≤ 0`, but Python floor division makes `q = -1 ≤ 0` for
`p = 0`, where the standalone module's mask is NOT all false: pixel (2,2)
of a 3×3 frame inverts at `t = 0`. -/
theorem degenerate_pitch_counterexample :
    ((0 : ℤ) - 1).fdiv 2 ≤ 0 ∧ shouldInvertPixel 2 2 0 0 3 3 = true := by
  decide

/-- C4 (amended): for degenerate pitch with `q = (p-1)//2 ≤ 0` the animated
mask generator returns an all-false mask for EVERY such pitch (its guards
catch `p ≤ 0` too), and the standalone module returns an all-false mask for
every such POSITIVE pitch (p ∈ {1, 2}); for p ≤ 0 the module can invert
pixels, as the counterexample shows. -/
theorem degenerate_pitch_all_false (p t x y : ℤ) (w h : ℕ) (xm ym : ℕ)
    (hq : (p - 1).fdiv 2 ≤ 0) :
    directPixelPre xm ym t p = false ∧
      (∀ row ∈ directMaskPre w h t p, ∀ b ∈ row, b = false) ∧
      (1 ≤ p → shouldInvertPixel x y t p w h = false) ∧
      (1 ≤ p → ∀ row ∈ generateMask w h t p, ∀ b ∈ row, b = false) := by
  have hdp : ∀ (a b : ℕ), directPixelPre a b t p = false := by
    intro a b
    unfold directPixelPre
    by_cases hg : p ≤ 0 ∨ t < 0
    · rw [if_pos hg]
    · rw [if_neg hg]
      show (if (p - 1).fdiv 2 ≤ 0 then false else _) = false
      rw [if_pos hq]
  have hp2 : 1 ≤ p → p = 1 ∨ p = 2 := by
    intro h1
    rw [Int.fdiv_eq_ediv _ (by norm_num)] at hq
    omega
  have hsi : 1 ≤ p → ∀ (a b : ℤ), shouldInvertPixel a b t p w h = false := by
    intro h1 a b
    rcases hp2 h1 with rfl | rfl
    · exact shouldInvert_false_of_candidates_replicate a b t 1 w h (by rfl)
    · exact shouldInvert_false_of_candidates_replicate a b t 2 w h (by rfl)
  refine ⟨hdp xm ym, ?_, fun h1 => hsi h1 x y, ?_⟩
  · intro row hrow b hb
    unfold directMaskPre at hrow
    obtain ⟨yy, hyy, rfl⟩ := List.mem_map.mp hrow
    obtain ⟨xx, hxx, rfl⟩ := List.mem_map.mp hb
    exact hdp xx yy
  · intro h1 row hrow b hb
    unfold generateMask at hrow
    obtain ⟨yy, hyy, rfl⟩ := List.mem_map.mp hrow
    obtain ⟨xx, hxx, rfl⟩ := List.mem_map.mp hb
    exact hsi h1 xx yy

/-- Witness for C4 (amended) at `p = 1` over a 2×2 frame. -/
theorem degenerate_pitch_all_false_witness :
    ((1 : ℤ) - 1).fdiv 2 ≤ 0 ∧
      (directPixelPre 0 0 0 1 = false ∧
        (∀ row ∈ directMaskPre 2 2 0 1, ∀ b ∈ row, b = false) ∧
        ((1 : ℤ) ≤ 1 → shouldInvertPixel 0 0 0 1 2 2 = false) ∧
        ((1 : ℤ) ≤ 1 → ∀ row ∈ generateMask 2 2 0 1, ∀ b ∈ row, b = false)) :=
  ⟨by decide, degenerate_pitch_all_false 1 0 0 0 2 2 0 0 (by decide)⟩

/-- Witness for C2 (amended) at pixel (0,0), `p = 9`, clocks 0. -/
theorem mask_periodicity_witness :
    directPixelPre 0 0 (0 + 9) 9 = directPixelPre 0 0 0 9 ∧
      processClockPixel 0 0 (0 + 2 * 9) 9 = processClockPixel 0 0 0 9 :=
  mask_periodicity 0 0 0 0 9 4 (by decide) (by decide) (by decide) (by decide)

namespace KiCore

/-- Distance from a point at local offset `u ∈ [0, 2q)` to any Type-1
coordinate `2qk` (in local coordinates) is at least the distance to the
nearer of the two surrounding Type-1 coordinates `0` and `2q`. -/
lemma coordA (q u k : ℤ) (hq : 0 < q) (hu : 0 ≤ u) (hu2 : u < 2 * q) :
    min u.toNat (2 * q - u).toNat ≤ (u - 2 * q * k).natAbs := by
  rcases le_or_lt k 0 with hk | hk
  · have hz : 2 * q * k ≤ 0 := mul_nonpos_of_nonneg_of_nonpos (by omega) hk
    omega
  · have hz : 2 * q ≤ 2 * q * k := le_mul_of_one_le_right (by omega) (by omega)
    omega

/-- Distance from a point at local offset `u ∈ [0, 2q)` to any Type-2
coordinate `(2k+1)q` (in local coordinates) is at least the distance to
the cell's own Type-2 coordinate `q`. -/
lemma coordB (q u k : ℤ) (hq : 0 < q) (hu : 0 ≤ u) (hu2 : u < 2 * q) :
    (u - q).natAbs ≤ (u - (2 * k + 1) * q).natAbs := by
  rcases lt_trichotomy k 0 with hk | rfl | hk
  · have hz : (2 * k + 1) * q ≤ (-1) * q :=
      mul_le_mul_of_nonneg_right (by omega) (by omega)
    omega
  · omega
  · have hz : 3 * q ≤ (2 * k + 1) * q :=
      mul_le_mul_of_nonneg_right (by omega) (by omega)
    omega

lemma type1_mem_candidates {p q : ℤ} (hqd : (p - 1).fdiv 2 = q) (hq : 0 < q)
    (w h : ℕ) (gx gy : ℤ) (hx1 : -1 ≤ gx) (hx2 : gx ≤ (w : ℤ).fdiv (2 * q) + 2)
    (hy1 : -1 ≤ gy) (hy2 : gy ≤ (h : ℤ).fdiv (2 * q) + 2) :
    (2 * gx * q, 2 * gy * q) ∈ candidates p w h := by
  unfold candidates
  rw [hqd]
  simp only []
  rw [if_pos hq, if_pos hq]
  apply List.mem_append_left
  rw [List.mem_flatMap]
  exact ⟨gy, mem_pyRange.mpr ⟨hy1, by omega⟩,
    List.mem_map.mpr ⟨gx, mem_pyRange.mpr ⟨hx1, by omega⟩, rfl⟩⟩

lemma type2_mem_candidates {p q : ℤ} (hqd : (p - 1).fdiv 2 = q) (hq : 0 < q)
    (w h : ℕ) (gx gy : ℤ) (hx1 : -1 ≤ gx) (hx2 : gx ≤ (w : ℤ).fdiv (2 * q) + 2)
    (hy1 : -1 ≤ gy) (hy2 : gy ≤ (h : ℤ).fdiv (2 * q) + 2) :
    ((2 * gx + 1) * q, (2 * gy + 1) * q) ∈ candidates p w h := by
  unfold candidates
  rw [hqd]
  simp only []
  rw [if_pos hq, if_pos hq]
  apply List.mem_append_right
  rw [List.mem_flatMap]
  exact ⟨gy, mem_pyRange.mpr ⟨hy1, by omega⟩,
    List.mem_map.mpr ⟨gx, mem_pyRange.mpr ⟨hx1, by omega⟩, rfl⟩⟩

lemma mem_candidates_elim {p q : ℤ} (hqd : (p - 1).fdiv 2 = q) {w h : ℕ}
    {c : ℤ × ℤ} (hc : c ∈ candidates p w h) :
    (∃ gx gy : ℤ, c = (2 * gx * q, 2 * gy * q)) ∨
      (∃ gx gy : ℤ, c = ((2 * gx + 1) * q, (2 * gy + 1) * q)) := by
  unfold candidates at hc
  rw [hqd] at hc
  simp only [] at hc
  rcases List.mem_append.mp hc with h1 | h2
  · left
    obtain ⟨gy, _, hmap⟩ := List.mem_flatMap.mp h1
    obtain ⟨gx, _, hceq⟩ := List.mem_map.mp hmap
    exact ⟨gx, gy, hceq.symm⟩
  · right
    obtain ⟨gy, _, hmap⟩ := List.mem_flatMap.mp h2
    obtain ⟨gx, _, hceq⟩ := List.mem_map.mp hmap
    exact ⟨gx, gy, hceq.symm⟩

lemma minFold_cases (dd : ℤ × ℤ → ℕ) :
    ∀ (L : List (ℤ × ℤ)) (m : ℕ),
      minFold dd m L = m ∨ ∃ a ∈ L, minFold dd m L = dd a := by
  intro L
  induction L with
  | nil => intro m; left; rfl
  | cons c L ih =>
    intro m
    have hc : minFold dd m (c :: L) = minFold dd (min m (dd c)) L := rfl
    rcases ih (min m (dd c)) with h | ⟨a, ha, hval⟩
    · rcases le_total m (dd c) with hle | hle
      · left
        rw [hc, h, min_eq_left hle]
      · right
        exact ⟨c, by simp, by rw [hc, h, min_eq_right hle]⟩
    · right
      exact ⟨a, by simp [ha], by rw [hc, hval]⟩

lemma minDistOver_le (dd : ℤ × ℤ → ℕ) (c0 : ℤ × ℤ) (L : List (ℤ × ℤ)) :
    ∀ a ∈ c0 :: L, minDistOver dd (c0 :: L) ≤ dd a := by
  intro a ha
  rcases List.mem_cons.mp ha with rfl | ha2
  · exact minFold_le_init dd L _
  · exact minFold_le_mem dd L _ a ha2

lemma minDistOver_achieved (dd : ℤ × ℤ → ℕ) (c0 : ℤ × ℤ) (L : List (ℤ × ℤ)) :
    ∃ a ∈ c0 :: L, dd a = minDistOver dd (c0 :: L) := by
  rcases minFold_cases dd L (dd c0) with h | ⟨a, ha, hval⟩
  · exact ⟨c0, by simp, h.symm⟩
  · exact ⟨a, by simp [ha], hval.symm⟩

/-- A unique-nearest result of `find_nearest_center` means the filter of
minimum-distance candidates is exactly `[c]`. -/
lemma findNearest_some_filter (x y p : ℤ) (w h : ℕ) (c : ℤ × ℤ)
    (hne : candidates p w h ≠ [])
    (hc : findNearestCenter x y p w h = some c) :
    (candidates p w h).filter
      (fun a => dist x y a = minDistOver (dist x y) (candidates p w h)) = [c] := by
  unfold findNearestCenter at hc
  rw [nearestCenters_eq x y p w h hne] at hc
  set F := (candidates p w h).filter
    (fun a => dist x y a = minDistOver (dist x y) (candidates p w h)) with hF
  have hFne : F ≠ [] := by
    obtain ⟨c0, L, hcl⟩ := List.exists_cons_of_ne_nil hne
    have hach := minDistOver_achieved (dist x y) c0 L
    rw [← hcl] at hach
    obtain ⟨a, ha, hval⟩ := hach
    have hmem : a ∈ F := by
      rw [hF]
      exact List.mem_filter.mpr ⟨ha, by simp [hval]⟩
    intro hFnil
    rw [hFnil] at hmem
    exact List.not_mem_nil a hmem
  by_cases hlen : 1 < F.length
  · rw [if_pos hlen] at hc
    exact absurd hc (by simp)
  · rw [if_neg hlen] at hc
    obtain ⟨a, F2, hFa⟩ := List.exists_cons_of_ne_nil hFne
    have hF2 : F2 = [] := by
      rw [hFa] at hlen
      simp only [List.length_cons, not_lt] at hlen
      exact List.length_eq_zero.mp (by omega)
    rw [hFa, hF2] at hc ⊢
    simp only [List.headD_cons, Option.some_inj] at hc
    rw [hc]

end KiCore

/-- C1 counterexample: the animated O(1) mask (pre-flip) does NOT equal the
static exhaustive mask at every pixel.  At the tie pixel (2,2) with
`p = 9` (odd, `q = 4 > 0`), `t = 0`, on a 10×10 frame, the exhaustive path
resolves the tie as "do not invert" while the closed form classifies the
pixel as Type-2-nearest and inverts the base decision. -/
theorem closed_form_vs_exhaustive_counterexample :
    directPixelPre 2 2 0 9 = true ∧
      shouldInvertPixel 2 2 ((0 : ℤ) % 9) 9 10 10 = false := by
  decide

/-- C1 (amended): for odd pitch `p = 2q+1` with `q > 0`, any non-negative
`t` and any in-frame pixel whose exhaustive nearest-center search returns a
UNIQUE center `c` (no tie), the animated O(1) mask before the global parity
flip equals the static exhaustive evaluate at `t mod p`; moreover the
unique nearest center is always among the five closed-form candidates (the
cell's four Type-1 corners and its Type-2 center).  At tie pixels the two
paths disagree, as the counterexample shows. -/
theorem closed_form_matches_exhaustive (x y w h : ℕ) (t p q : ℤ) (c : ℤ × ℤ)
    (hp : p = 2 * q + 1) (hq : 0 < q) (ht : 0 ≤ t) (hxw : x < w) (hyh : y < h)
    (hc : findNearestCenter (x : ℤ) (y : ℤ) p w h = some c) :
    c ∈ fiveCenters x y p ∧
      directPixelPre x y t p = shouldInvertPixel (x : ℤ) (y : ℤ) (t % p) p w h := by
  have hq' : (p - 1).fdiv 2 = q := q_of_odd hp
  have hppos : 0 < p := by omega
  have h2q : (0 : ℤ) < 2 * q := by omega
  set cx := ((x : ℤ)).fdiv (2 * q) with hcx
  set cy := ((y : ℤ)).fdiv (2 * q) with hcy
  set u := (x : ℤ) % (2 * q) with hu
  set v := (y : ℤ) % (2 * q) with hv
  have hu0 : 0 ≤ u := Int.emod_nonneg _ (by omega)
  have hu2 : u < 2 * q := Int.emod_lt_of_pos _ h2q
  have hv0 : 0 ≤ v := Int.emod_nonneg _ (by omega)
  have hv2 : v < 2 * q := Int.emod_lt_of_pos _ h2q
  have hsx : 2 * q * cx + u = (x : ℤ) := by
    rw [hcx, hu, Int.fdiv_eq_ediv _ (le_of_lt h2q)]
    exact Int.ediv_add_emod _ _
  have hsy : 2 * q * cy + v = (y : ℤ) := by
    rw [hcy, hv, Int.fdiv_eq_ediv _ (le_of_lt h2q)]
    exact Int.ediv_add_emod _ _
  have hcx0 : 0 ≤ cx := by
    rw [hcx, Int.fdiv_eq_ediv _ (le_of_lt h2q)]
    exact Int.ediv_nonneg (by positivity) (by omega)
  have hcy0 : 0 ≤ cy := by
    rw [hcy, Int.fdiv_eq_ediv _ (le_of_lt h2q)]
    exact Int.ediv_nonneg (by positivity) (by omega)
  have hcxW : cx ≤ (w : ℤ).fdiv (2 * q) + 1 := by
    rw [hcx, Int.fdiv_eq_ediv ((x : ℤ)) (le_of_lt h2q),
      Int.fdiv_eq_ediv ((w : ℤ)) (le_of_lt h2q)]
    have hle : (x : ℤ) ≤ (w : ℤ) := by exact_mod_cast le_of_lt hxw
    have := Int.ediv_le_ediv h2q hle
    omega
  have hcyH : cy ≤ (h : ℤ).fdiv (2 * q) + 1 := by
    rw [hcy, Int.fdiv_eq_ediv ((y : ℤ)) (le_of_lt h2q),
      Int.fdiv_eq_ediv ((h : ℤ)) (le_of_lt h2q)]
    have hle : (y : ℤ) ≤ (h : ℤ) := by exact_mod_cast le_of_lt hyh
    have := Int.ediv_le_ediv h2q hle
    omega
  -- coordinate identities
  have ex1 : (x : ℤ) - cx * (2 * q) = u := by linear_combination -hsx
  have ex2 : (x : ℤ) - (cx + 1) * (2 * q) = u - 2 * q := by linear_combination -hsx
  have ex5 : (x : ℤ) - (cx * 2 + 1) * q = u - q := by linear_combination -hsx
  have ey1 : (y : ℤ) - cy * (2 * q) = v := by linear_combination -hsy
  have ey2 : (y : ℤ) - (cy + 1) * (2 * q) = v - 2 * q := by linear_combination -hsy
  have ey5 : (y : ℤ) - (cy * 2 + 1) * q = v - q := by linear_combination -hsy
  have na1x : ((x : ℤ) - cx * (2 * q)).natAbs = u.toNat := by rw [ex1]; omega
  have na2x : ((x : ℤ) - (cx + 1) * (2 * q)).natAbs = (2 * q - u).toNat := by
    rw [ex2]; omega
  have na5x : ((x : ℤ) - (cx * 2 + 1) * q).natAbs = (u - q).natAbs := by rw [ex5]
  have na1y : ((y : ℤ) - cy * (2 * q)).natAbs = v.toNat := by rw [ey1]; omega
  have na2y : ((y : ℤ) - (cy + 1) * (2 * q)).natAbs = (2 * q - v).toNat := by
    rw [ey2]; omega
  have na5y : ((y : ℤ) - (cy * 2 + 1) * q).natAbs = (v - q).natAbs := by rw [ey5]
  -- the five-candidate minimum, in local coordinates
  set M5 := min (min (min (u.toNat + v.toNat) ((2 * q - u).toNat + v.toNat))
      (min (u.toNat + (2 * q - v).toNat) ((2 * q - u).toNat + (2 * q - v).toNat)))
      ((u - q).natAbs + (v - q).natAbs) with hM5
  -- coverage: the five candidates are in the exhaustive list
  have hA1 : ((cx * (2 * q), cy * (2 * q)) : ℤ × ℤ) ∈ candidates p w h := by
    have hm := type1_mem_candidates hq' hq w h cx cy
      (by omega) (by omega) (by omega) (by omega)
    rw [show cx * (2 * q) = 2 * cx * q from by ring,
      show cy * (2 * q) = 2 * cy * q from by ring]
    exact hm
  have hA2 : (((cx + 1) * (2 * q), cy * (2 * q)) : ℤ × ℤ) ∈ candidates p w h := by
    have hm := type1_mem_candidates hq' hq w h (cx + 1) cy
      (by omega) (by omega) (by omega) (by omega)
    rw [show (cx + 1) * (2 * q) = 2 * (cx + 1) * q from by ring,
      show cy * (2 * q) = 2 * cy * q from by ring]
    exact hm
  have hA3 : ((cx * (2 * q), (cy + 1) * (2 * q)) : ℤ × ℤ) ∈ candidates p w h := by
    have hm := type1_mem_candidates hq' hq w h cx (cy + 1)
      (by omega) (by omega) (by omega) (by omega)
    rw [show cx * (2 * q) = 2 * cx * q from by ring,
      show (cy + 1) * (2 * q) = 2 * (cy + 1) * q from by ring]
    exact hm
  have hA4 : (((cx + 1) * (2 * q), (cy + 1) * (2 * q)) : ℤ × ℤ) ∈ candidates p w h := by
    have hm := type1_mem_candidates hq' hq w h (cx + 1) (cy + 1)
      (by omega) (by omega) (by omega) (by omega)
    rw [show (cx + 1) * (2 * q) = 2 * (cx + 1) * q from by ring,
      show (cy + 1) * (2 * q) = 2 * (cy + 1) * q from by ring]
    exact hm
  have hA5 : (((cx * 2 + 1) * q, (cy * 2 + 1) * q) : ℤ × ℤ) ∈ candidates p w h := by
    have hm := type2_mem_candidates hq' hq w h cx cy
      (by omega) (by omega) (by omega) (by omega)
    rw [show (cx * 2 + 1) * q = (2 * cx + 1) * q from by ring,
      show (cy * 2 + 1) * q = (2 * cy + 1) * q from by ring]
    exact hm
  have hne : candidates p w h ≠ [] := by
    intro h0
    rw [h0] at hA1
    exact List.not_mem_nil _ hA1
  set MD := minDistOver (KiCore.dist (x : ℤ) (y : ℤ)) (candidates p w h) with hMD
  have hMDle : ∀ a ∈ candidates p w h, MD ≤ KiCore.dist (x : ℤ) (y : ℤ) a := by
    intro a ha
    obtain ⟨c0, L, hcl⟩ := List.exists_cons_of_ne_nil hne
    rw [hcl] at ha
    rw [hMD, hcl]
    exact minDistOver_le _ c0 L a ha
  -- distances of the five candidates
  have hd1 : KiCore.dist (x : ℤ) (y : ℤ) (cx * (2 * q), cy * (2 * q)) = u.toNat + v.toNat := by
    unfold KiCore.dist
    rw [show ((cx * (2 * q), cy * (2 * q)) : ℤ × ℤ).1 = cx * (2 * q) from rfl,
      show ((cx * (2 * q), cy * (2 * q)) : ℤ × ℤ).2 = cy * (2 * q) from rfl,
      na1x, na1y]
  have hd2 : KiCore.dist (x : ℤ) (y : ℤ) ((cx + 1) * (2 * q), cy * (2 * q)) =
      (2 * q - u).toNat + v.toNat := by
    unfold KiCore.dist
    rw [show (((cx + 1) * (2 * q), cy * (2 * q)) : ℤ × ℤ).1 = (cx + 1) * (2 * q) from rfl,
      show (((cx + 1) * (2 * q), cy * (2 * q)) : ℤ × ℤ).2 = cy * (2 * q) from rfl,
      na2x, na1y]
  have hd3 : KiCore.dist (x : ℤ) (y : ℤ) (cx * (2 * q), (cy + 1) * (2 * q)) =
      u.toNat + (2 * q - v).toNat := by
    unfold KiCore.dist
    rw [show ((cx * (2 * q), (cy + 1) * (2 * q)) : ℤ × ℤ).1 = cx * (2 * q) from rfl,
      show ((cx * (2 * q), (cy + 1) * (2 * q)) : ℤ × ℤ).2 = (cy + 1) * (2 * q) from rfl,
      na1x, na2y]
  have hd4 : KiCore.dist (x : ℤ) (y : ℤ) ((cx + 1) * (2 * q), (cy + 1) * (2 * q)) =
      (2 * q - u).toNat + (2 * q - v).toNat := by
    unfold KiCore.dist
    rw [show (((cx + 1) * (2 * q), (cy + 1) * (2 * q)) : ℤ × ℤ).1 = (cx + 1) * (2 * q) from rfl,
      show (((cx + 1) * (2 * q), (cy + 1) * (2 * q)) : ℤ × ℤ).2 = (cy + 1) * (2 * q) from rfl,
      na2x, na2y]
  have hd5 : KiCore.dist (x : ℤ) (y : ℤ) ((cx * 2 + 1) * q, (cy * 2 + 1) * q) =
      (u - q).natAbs + (v - q).natAbs := by
    unfold KiCore.dist
    rw [show (((cx * 2 + 1) * q, (cy * 2 + 1) * q) : ℤ × ℤ).1 = (cx * 2 + 1) * q from rfl,
      show (((cx * 2 + 1) * q, (cy * 2 + 1) * q) : ℤ × ℤ).2 = (cy * 2 + 1) * q from rfl,
      na5x, na5y]
  -- domination: every candidate is at least M5 away
  have hdom : ∀ a ∈ candidates p w h, M5 ≤ KiCore.dist (x : ℤ) (y : ℤ) a := by
    intro a ha
    rcases mem_candidates_elim hq' ha with ⟨gx, gy, rfl⟩ | ⟨gx, gy, rfl⟩
    · have hax : (x : ℤ) - 2 * gx * q = u - 2 * q * (gx - cx) := by linear_combination -hsx
      have hay : (y : ℤ) - 2 * gy * q = v - 2 * q * (gy - cy) := by linear_combination -hsy
      have h1 := coordA q u (gx - cx) hq hu0 hu2
      have h2 := coordA q v (gy - cy) hq hv0 hv2
      unfold KiCore.dist
      rw [show ((2 * gx * q, 2 * gy * q) : ℤ × ℤ).1 = 2 * gx * q from rfl,
        show ((2 * gx * q, 2 * gy * q) : ℤ × ℤ).2 = 2 * gy * q from rfl, hax, hay]
      omega
    · have hax : (x : ℤ) - (2 * gx + 1) * q = u - (2 * (gx - cx) + 1) * q := by
        linear_combination -hsx
      have hay : (y : ℤ) - (2 * gy + 1) * q = v - (2 * (gy - cy) + 1) * q := by
        linear_combination -hsy
      have h1 := coordB q u (gx - cx) hq hu0 hu2
      have h2 := coordB q v (gy - cy) hq hv0 hv2
      unfold KiCore.dist
      rw [show (((2 * gx + 1) * q, (2 * gy + 1) * q) : ℤ × ℤ).1 = (2 * gx + 1) * q from rfl,
        show (((2 * gx + 1) * q, (2 * gy + 1) * q) : ℤ × ℤ).2 = (2 * gy + 1) * q from rfl,
        hax, hay]
      omega
  -- the unique nearest center
  have hfilter := findNearest_some_filter (x : ℤ) (y : ℤ) p w h c hne hc
  have hcmem : c ∈ candidates p w h ∧ KiCore.dist (x : ℤ) (y : ℤ) c = MD := by
    have hm : c ∈ (candidates p w h).filter
        (fun a => KiCore.dist (x : ℤ) (y : ℤ) a = minDistOver (KiCore.dist (x : ℤ) (y : ℤ))
          (candidates p w h)) := by
      rw [hfilter]
      simp
    have h2 := List.mem_filter.mp hm
    exact ⟨h2.1, by simpa using h2.2⟩
  have huniq : ∀ a ∈ candidates p w h, KiCore.dist (x : ℤ) (y : ℤ) a = MD → a = c := by
    intro a ha hda
    have hm : a ∈ (candidates p w h).filter
        (fun a => KiCore.dist (x : ℤ) (y : ℤ) a = minDistOver (KiCore.dist (x : ℤ) (y : ℤ))
          (candidates p w h)) :=
      List.mem_filter.mpr ⟨ha, by simp [hda, ← hMD]⟩
    rw [hfilter] at hm
    simpa using hm
  have hM5MD : M5 = MD := by
    have l1 := hMDle _ hA1
    have l2 := hMDle _ hA2
    have l3 := hMDle _ hA3
    have l4 := hMDle _ hA4
    have l5 := hMDle _ hA5
    rw [hd1] at l1
    rw [hd2] at l2
    rw [hd3] at l3
    rw [hd4] at l4
    rw [hd5] at l5
    have hge := hdom c hcmem.1
    rw [hcmem.2] at hge
    omega
  -- both mask values, reduced to a common base
  set thr := (t % p).fdiv 2 with hthr
  set base := decide ((M5 : ℤ) ≤ thr) with hbase
  have hdir : directPixelPre x y t p =
      (if (u - q).natAbs + (v - q).natAbs = M5 then !base else base) := by
    unfold directPixelPre
    rw [if_neg (show ¬(p ≤ 0 ∨ t < 0) by omega)]
    simp only []
    rw [hq', if_neg (show ¬q ≤ 0 by omega), ← hcx, ← hcy, na1x, na2x, na5x, na1y,
      na2y, na5y, ← hM5, ← hthr, ← hbase]
    by_cases hd : (u - q).natAbs + (v - q).natAbs = M5
    · rw [if_pos hd]
      simp [hd]
    · rw [if_neg hd]
      simp [hd]
  have hmod : shouldInvertPixel (x : ℤ) (y : ℤ) (t % p) p w h =
      (if (c.1.fdiv q) % 2 = 1 ∧ (c.2.fdiv q) % 2 = 1 then !base else base) := by
    unfold shouldInvertPixel
    rw [hc]
    simp only []
    rw [hq', if_pos hq, hcmem.2, ← hM5MD, ← hthr, ← hbase]
  -- case split on whether the Type-2 candidate achieves the minimum
  by_cases h5 : (u - q).natAbs + (v - q).natAbs = M5
  · -- the Type-2 center is the unique nearest
    have hA5c : (((cx * 2 + 1) * q, (cy * 2 + 1) * q) : ℤ × ℤ) = c := by
      apply huniq _ hA5
      rw [hd5, h5, hM5MD]
    have hcond : (c.1.fdiv q) % 2 = 1 ∧ (c.2.fdiv q) % 2 = 1 := by
      rw [← hA5c]
      constructor
      · rw [show (((cx * 2 + 1) * q, (cy * 2 + 1) * q) : ℤ × ℤ).1 = (cx * 2 + 1) * q from rfl,
          Int.mul_fdiv_cancel _ (by omega)]
        omega
      · rw [show (((cx * 2 + 1) * q, (cy * 2 + 1) * q) : ℤ × ℤ).2 = (cy * 2 + 1) * q from rfl,
          Int.mul_fdiv_cancel _ (by omega)]
        omega
    constructor
    · rw [← hA5c]
      unfold fiveCenters
      rw [hq']
      simp only [← hcx, ← hcy]
      simp
    · rw [hdir, hmod, if_pos h5, if_pos hcond]
  · -- one of the four Type-1 corners is the unique nearest
    have hcorner : M5 = u.toNat + v.toNat ∨ M5 = (2 * q - u).toNat + v.toNat ∨
        M5 = u.toNat + (2 * q - v).toNat ∨
        M5 = (2 * q - u).toNat + (2 * q - v).toNat := by
      rw [hM5]
      omega
    have hc1even : ∀ a : ℤ, ((a * (2 * q)).fdiv q) % 2 = 1 → False := by
      intro a hpar
      rw [show a * (2 * q) = (a * 2) * q from by ring,
        Int.mul_fdiv_cancel _ (by omega)] at hpar
      omega
    have hfinish : ∀ cc : ℤ × ℤ, cc = c → (∃ a : ℤ, cc.1 = a * (2 * q)) →
        (c ∈ fiveCenters x y p ↔ cc ∈ fiveCenters x y p) ∧
          ¬((c.1.fdiv q) % 2 = 1 ∧ (c.2.fdiv q) % 2 = 1) := by
      intro cc heq ⟨a, ha⟩
      constructor
      · rw [heq]
      · intro ⟨hpar, _⟩
        rw [← heq, ha] at hpar
        exact hc1even a hpar
    rcases hcorner with hmc | hmc | hmc | hmc
    · have hAc : ((cx * (2 * q), cy * (2 * q)) : ℤ × ℤ) = c := by
        apply huniq _ hA1
        rw [hd1, ← hmc, hM5MD]
      obtain ⟨hiff, hncond⟩ := hfinish _ hAc ⟨cx, rfl⟩
      refine ⟨hiff.mpr ?_, ?_⟩
      · unfold fiveCenters
        rw [hq']
        simp only [← hcx, ← hcy]
        simp
      · rw [hdir, hmod, if_neg h5, if_neg hncond]
    · have hAc : (((cx + 1) * (2 * q), cy * (2 * q)) : ℤ × ℤ) = c := by
        apply huniq _ hA2
        rw [hd2, ← hmc, hM5MD]
      obtain ⟨hiff, hncond⟩ := hfinish _ hAc ⟨cx + 1, rfl⟩
      refine ⟨hiff.mpr ?_, ?_⟩
      · unfold fiveCenters
        rw [hq']
        simp only [← hcx, ← hcy]
        simp
      · rw [hdir, hmod, if_neg h5, if_neg hncond]
    · have hAc : ((cx * (2 * q), (cy + 1) * (2 * q)) : ℤ × ℤ) = c := by
        apply huniq _ hA3
        rw [hd3, ← hmc, hM5MD]
      obtain ⟨hiff, hncond⟩ := hfinish _ hAc ⟨cx, rfl⟩
      refine ⟨hiff.mpr ?_, ?_⟩
      · unfold fiveCenters
        rw [hq']
        simp only [← hcx, ← hcy]
        simp
      · rw [hdir, hmod, if_neg h5, if_neg hncond]
    · have hAc : (((cx + 1) * (2 * q), (cy + 1) * (2 * q)) : ℤ × ℤ) = c := by
        apply huniq _ hA4
        rw [hd4, ← hmc, hM5MD]
      obtain ⟨hiff, hncond⟩ := hfinish _ hAc ⟨cx + 1, rfl⟩
      refine ⟨hiff.mpr ?_, ?_⟩
      · unfold fiveCenters
        rw [hq']
        simp only [← hcx, ← hcy]
        simp
      · rw [hdir, hmod, if_neg h5, if_neg hncond]

/-- Witness for C1 (amended): pixel (0,1) of a 10×10 frame, `p = 9`,
`t = 5`, whose unique nearest center is `(0, 0)`. -/
theorem closed_form_matches_exhaustive_witness :
    ((0 : ℤ), (0 : ℤ)) ∈ fiveCenters 0 1 9 ∧
      directPixelPre 0 1 5 9 = shouldInvertPixel 0 1 ((5 : ℤ) % 9) 9 10 10 :=
  closed_form_matches_exhaustive 0 1 10 10 5 9 4 ((0 : ℤ), (0 : ℤ))
    (by decide) (by decide) (by decide) (by decide) (by decide) (by decide)
